import Mathlib

/-!
Verification of the ratewarden admission-control engine against its source.

The embedding follows the JavaScript source:
  * `src/stores/memory.js`  — `MemoryStore` (the local backend),
  * `src/stores/redis.js`   — `RedisStore` (the shared backend, its sorted set
    modelled as an ascending list of integer scores),
  * `src/tier.js`           — `DEFAULT_TIERS`, `getTierLimit`,
  * `src/index.js`          — `rateGuard` construction and the middleware's
    result/error handling.

JavaScript numeric edge values that the code relies on (`Infinity` limits,
`undefined` tier lookups, `NaN` arithmetic on `undefined`) are modelled
explicitly by the `Lim` and `JsNum` types; epoch-millisecond times are `Int`.
-/

namespace Ratewarden

/-- A rate limit value as it can actually flow into `checkLimit` from
`getTierLimit`: a finite number, JavaScript `Infinity`, or `undefined`
(when neither the tier nor `free` is present in the tier table). -/
inductive Lim where
  | fin (n : Int)
  | inf
  | undef
deriving Repr, DecidableEq

/-- A JavaScript number as observed in `Decision` fields: an integer,
`Infinity`, or `NaN`. -/
inductive JsNum where
  | int (n : Int)
  | inf
  | nan
deriving Repr, DecidableEq

/-- The JS comparison `count >= limit` where `count` is a plain number:
against `Infinity` it is always false, and against `undefined` (which
coerces to `NaN`) it is also always false. -/
def jsGE (count : Int) (lim : Lim) : Bool :=
  match lim with
  | .fin n => decide (n ≤ count)
  | .inf => false
  | .undef => false

/-- The JS subtraction `limit - count`: `Infinity - count = Infinity`,
`undefined - count = NaN`. -/
def limSub (lim : Lim) (count : Int) : JsNum :=
  match lim with
  | .fin n => .int (n - count)
  | .inf => .inf
  | .undef => .nan

/-- `Math.ceil(a / b)` for integer `a` and positive integer `b`
(every division in the source is by the literal 1000). -/
def jsCeilDiv (a b : Int) : Int := -((-a) / b)

/-- Whether a JS number is a negative number (`NaN` and `Infinity` are not). -/
def jsIsNeg : JsNum → Bool
  | .int n => decide (n < 0)
  | .inf => false
  | .nan => false

/-- The result object returned by both stores' `checkLimit`. -/
structure Decision where
  allowed : Bool
  current : Int
  remaining : JsNum
  resetTime : Int
  retryAfter : JsNum
deriving Repr, DecidableEq

/-- A JS `Map<string, number[]>` in insertion order (the `requests` map of
`MemoryStore`, and likewise the keyed sorted sets held by the Redis server). -/
def StoreMap := List (String × List Int)

/-- `Map.get(k)` followed by the source's `|| []` default. -/
def getEntry (st : StoreMap) (k : String) : List Int :=
  match st with
  | [] => []
  | (k2, v) :: rest => if k2 = k then v else getEntry rest k

/-- `Map.set(k, v)`: replace in place, or append a fresh entry. -/
def setEntry (st : StoreMap) (k : String) (v : List Int) : StoreMap :=
  match st with
  | [] => [(k, v)]
  | (k2, v2) :: rest => if k2 = k then (k2, v) :: rest else (k2, v2) :: setEntry rest k v

/-- The local backend's pruning step,
`timestamps.filter(ts => ts > windowStart)` (memory.js line 269). -/
def memPrune (windowStart : Int) (l : List Int) : List Int :=
  l.filter (fun ts => decide (windowStart < ts))

/-- The shared backend's pruning step,
`zRemRangeByScore(key, 0, windowStart)` (redis.js line 84): members whose
score lies in the inclusive range `[0, windowStart]` are removed. -/
def redisPrune (windowStart : Int) (l : List Int) : List Int :=
  l.filter (fun s => !(decide (0 ≤ s) && decide (s ≤ windowStart)))

/-- `MemoryStore.checkLimit` (memory.js lines 261-299) acting on the one
timestamp list the call touches; returns the decision and the list that is
written back with `Map.set`. -/
def memCheckList (W : Int) (l : List Int) (lim : Lim) (now : Int) :
    Decision × List Int :=
  let windowStart := now - W
  let timestamps := memPrune windowStart l
  let resetTime :=
    match timestamps.head? with
    | some t0 => jsCeilDiv (t0 + W) 1000
    | none => jsCeilDiv (now + W) 1000
  if jsGE (timestamps.length : Int) lim then
    ({ allowed := false, current := (timestamps.length : Int), remaining := .int 0,
       resetTime := resetTime,
       retryAfter :=
         match timestamps.head? with
         | some t0 => .int (jsCeilDiv (t0 + W - now) 1000)
         | none => .nan },
     timestamps)
  else
    let ts2 := timestamps ++ [now]
    ({ allowed := true, current := (ts2.length : Int),
       remaining := limSub lim (ts2.length : Int),
       resetTime := resetTime, retryAfter := .int 0 },
     ts2)

/-- `MemoryStore.checkLimit` on the whole `requests` map. The deny branch's
`retryAfter` reads `timestamps[0]`, which on an empty list is `undefined`
and makes the whole ceiling expression `NaN` — modelled by `JsNum.nan`
in `memCheckList`. -/
def memCheckLimit (W : Int) (st : StoreMap) (k : String) (lim : Lim) (now : Int) :
    Decision × StoreMap :=
  let r := memCheckList W (getEntry st k) lim now
  (r.1, setEntry st k r.2)

/-- `MemoryStore.cleanup` (memory.js lines 305-320): filter every entry and
delete the entry when nothing in-window remains. -/
def memCleanup (W now : Int) : StoreMap → StoreMap
  | [] => []
  | (k, ts) :: rest =>
    let valid := memPrune (now - W) ts
    if valid.length = 0 then memCleanup W now rest
    else (k, valid) :: memCleanup W now rest

/-- `ZADD` into a sorted set: insert keeping scores ascending (a new member
with a duplicate score lands after the existing ones, matching member-level
tie-breaking only in position, which no claim observes). -/
def insertByScore (x : Int) : List Int → List Int
  | [] => [x]
  | y :: ys => if x < y then x :: y :: ys else y :: insertByScore x ys

/-- `RedisStore.checkLimit` (redis.js lines 74-146) acting on one key's
sorted set (ascending scores). Members are `"{now}-{random}"`, so parsing
the oldest member's text before the dash recovers its score; the model
therefore reads the oldest score directly. Returns the decision and the
set as left on the server (pruned, plus the `zAdd`ed member when allowed). -/
def redisCheckLimit (W : Int) (zset : List Int) (lim : Lim) (now : Int) :
    Decision × List Int :=
  let windowStart := now - W
  let pruned := redisPrune windowStart zset
  let currentCount := (pruned.length : Int)
  let oldest := pruned.head?
  let resetTime :=
    match oldest with
    | some t0 => jsCeilDiv (t0 + W) 1000
    | none => jsCeilDiv (now + W) 1000
  if jsGE currentCount lim then
    ({ allowed := false, current := currentCount, remaining := .int 0,
       resetTime := resetTime,
       retryAfter :=
         match oldest with
         | some t0 => .int (jsCeilDiv (t0 + W - now) 1000)
         | none => .int 0 },
     pruned)
  else
    ({ allowed := true, current := currentCount + 1,
       remaining :=
         match lim with
         | .fin n => .int (n - currentCount - 1)
         | .inf => .inf
         | .undef => .nan,
       resetTime := resetTime, retryAfter := .int 0 },
     insertByScore now pruned)

/-- `RedisStore._getKey` (redis.js lines 61-63): `{prefix}{tier}:{identityKey}`. -/
def mkRedisKey (pre tier k : String) : String := pre ++ tier ++ ":" ++ k

/-- `RedisStore.checkLimit` against the server's keyed state. -/
def redisCheckLimitOn (W : Int) (pre tier : String) (st : StoreMap) (k : String)
    (lim : Lim) (now : Int) : Decision × StoreMap :=
  let key := mkRedisKey pre tier k
  let r := redisCheckLimit W (getEntry st key) lim now
  (r.1, setEntry st key r.2)

/-- Run a sequence of local-backend `checkLimit` calls; each call is an
(identity key, limit, `Date.now()` value) triple. -/
def memRun (W : Int) (st : StoreMap) : List (String × Lim × Int) → List Decision × StoreMap
  | [] => ([], st)
  | (k, lim, t) :: rest =>
    let r := memCheckLimit W st k lim t
    let rs := memRun W r.2 rest
    (r.1 :: rs.1, rs.2)

/-- Run the same call sequence against the shared backend (fixed key
namespace and tier, as the middleware uses per store instance). -/
def redisRun (W : Int) (pre tier : String) (st : StoreMap) :
    List (String × Lim × Int) → List Decision × StoreMap
  | [] => ([], st)
  | (k, lim, t) :: rest =>
    let r := redisCheckLimitOn W pre tier st k lim t
    let rs := redisRun W pre tier r.2 rest
    (r.1 :: rs.1, rs.2)

/-- `DEFAULT_TIERS` (tier.js lines 6-11). -/
def DEFAULT_TIERS : List (String × Lim) :=
  [("free", Lim.fin 60), ("pro", Lim.fin 600), ("admin", Lim.inf), ("guest", Lim.fin 30)]

/-- JS object property lookup, `undefined` when absent. -/
def lookupTier (tbl : List (String × Lim)) (t : String) : Option Lim :=
  match tbl with
  | [] => none
  | (k, v) :: rest => if k = t then some v else lookupTier rest t

/-- `getTierLimit` (tier.js lines 44-47):
`config[tier] !== undefined ? config[tier] : config.free`, where absent
properties read as `undefined` (`Lim.undef`). -/
def getTierLimit (tier : String) (tiers : Option (List (String × Lim))) : Lim :=
  let config := tiers.getD DEFAULT_TIERS
  match lookupTier config tier with
  | some v => v
  | none => (lookupTier config "free").getD Lim.undef

/-- `DEFAULT_WINDOW_MS` (tier.js line 14). -/
def DEFAULT_WINDOW_MS : Int := 60 * 1000

/-- The recognized option surface of the `rateGuard` factory (index.js lines
442-452). The three callback options are modelled by their presence, which is
all the construction path and the middleware's error path consult; a present
callback's behavior only affects the identity/tier resolution steps. The
`redisClient` option is modelled by whether a (truthy) client was passed.
`redisKeyNs` stands for the key-namespace option (the source calls it the
redis key namespace string, default the literal used in `_getKey`). -/
structure RateGuardOptions where
  windowMs : Option Int
  tiers : Option (List (String × Lim))
  hasResolveTier : Bool
  hasKeyGenerator : Bool
  hasOnLimitReached : Bool
  hasRedisClient : Bool
  redisKeyNs : Option String
deriving Repr, DecidableEq

/-- The JS default idiom `options.x || d` for a numeric option: `undefined`
and `0` are falsy and fall back to the default. -/
def jsOrElseInt (v : Option Int) (d : Int) : Int :=
  match v with
  | some w => if w = 0 then d else w
  | none => d

/-- The configuration object the factory builds and closes over. -/
structure RateGuardConfig where
  windowMs : Int
  tiers : List (String × Lim)
  hasRedisClient : Bool
deriving Repr, DecidableEq

/-- `rateGuard` construction (index.js lines 442-478): build the config with
`||` defaults and create the store. The only throw reachable from store
creation is the `RedisStore` constructor's guard `if (!redisClient) throw`,
which sits inside the `if (config.redisClient)` branch and is therefore
unreachable; no other validation exists. -/
def rateGuardInit (opts : RateGuardOptions) : Except String RateGuardConfig :=
  let cfg : RateGuardConfig :=
    { windowMs := jsOrElseInt opts.windowMs DEFAULT_WINDOW_MS,
      tiers := opts.tiers.getD DEFAULT_TIERS,
      hasRedisClient := opts.hasRedisClient }
  if opts.hasRedisClient then
    if opts.hasRedisClient then Except.ok cfg
    else Except.error "[ratewarden] Redis client is required. Pass a connected redis client instance."
  else Except.ok cfg

/-- What the middleware does with the request after the admission check:
pass it on (`next()`) or send a 429 response. -/
inductive MwOutcome where
  | next
  | send429
deriving Repr, DecidableEq

/-- Steps 6 and the catch of `rateGuardMiddleware` (index.js lines 514-543):
an `allowed` decision continues, a denied decision sends 429, and any raised
error hits `catch (error) { console.error(...); next(); }` — the request is
passed on regardless of the configuration. -/
def rateGuardHandleResult (opts : RateGuardOptions) (result : Except String Decision) :
    MwOutcome :=
  match result with
  | .ok r => if r.allowed then MwOutcome.next else MwOutcome.send429
  | .error _ => MwOutcome.next

/-- `RedisStore.checkLimit` including its transport error path (redis.js
lines 79-145): the pipeline outcome is either the key's sorted set or a
transport error; the catch block rethrows the error wrapped, it never
fabricates a decision. -/
def redisCheckLimitExec (W : Int) (exec : Except String (List Int)) (lim : Lim)
    (now : Int) : Except String (Decision × List Int) :=
  match exec with
  | .error e => .error ("[ratewarden] Redis error in checkLimit: " ++ e)
  | .ok zset => .ok (redisCheckLimit W zset lim now)

/-! ## Theorems -/

/-- C1, counterexample: the fail-open versus fail-closed choice is NOT
configurable — no configuration makes the middleware fail closed on a
backend error; the catch block unconditionally passes the request on. -/
theorem c1_failpolicy_counterexample :
    ¬ ∃ (opts : RateGuardOptions) (e : String),
        rateGuardHandleResult opts (Except.error e) = MwOutcome.send429 := by
  rintro ⟨opts, e, h⟩
  simp [rateGuardHandleResult] at h

/-- C1, amended: when an admission check raises an error, the shared store's
`checkLimit` surfaces it to the adapter as an error (it never converts it to
an allow or deny decision), but the bundled middleware adapter hardcodes
fail-open: on any error it logs and calls `next()`, and no configuration
option changes that. -/
theorem c1_error_surfaced_failopen_hardcoded (W now : Int) (lim : Lim)
    (e : String) (opts : RateGuardOptions) :
    redisCheckLimitExec W (Except.error e) lim now =
      Except.error ("[ratewarden] Redis error in checkLimit: " ++ e) ∧
    rateGuardHandleResult opts (Except.error e) = MwOutcome.next := by
  exact ⟨rfl, rfl⟩

/-- C5: both backends' pruning steps treat the window as the half-open
interval `(windowStart, now]` — a recorded (hence nonnegative epoch-ms)
timestamp survives pruning exactly when it is strictly greater than
`windowStart`; one equal to `windowStart` is dropped. Consequently the
decision of `memCheckList` (hence of both `checkLimit`s, which call these
prune functions) counts only the retained timestamps. -/
theorem c5_halfopen_window (windowStart : Int) (l : List Int) (t : Int)
    (ht : 0 ≤ t) :
    ((t ∈ memPrune windowStart l ↔ t ∈ l ∧ windowStart < t) ∧
     (t ∈ redisPrune windowStart l ↔ t ∈ l ∧ windowStart < t)) := by
  constructor
  · simp [memPrune, List.mem_filter, and_comm]
  · simp only [redisPrune, List.mem_filter, Bool.not_eq_true', Bool.and_eq_false_iff,
      decide_eq_false_iff_not, not_le, decide_eq_true_eq]
    constructor
    · rintro ⟨hmem, h | h⟩
      · omega
      · exact ⟨hmem, h⟩
    · rintro ⟨hmem, h⟩
      exact ⟨hmem, Or.inr h⟩

/-- C5 witness: at `windowStart = 3`, the timestamp `3` is dropped and `5`
is retained by both backends. -/
theorem c5_halfopen_window_witness :
    (0 : Int) ≤ 5 ∧
    (((5 : Int) ∈ memPrune 3 [3, 5] ↔ (5 : Int) ∈ [(3 : Int), 5] ∧ (3 : Int) < 5) ∧
     ((5 : Int) ∈ redisPrune 3 [3, 5] ↔ (5 : Int) ∈ [(3 : Int), 5] ∧ (3 : Int) < 5)) :=
  ⟨by decide, c5_halfopen_window 3 [3, 5] 5 (by decide)⟩

/-- C6: with an unbounded (`Infinity`) limit every `checkLimit` call is
allowed on both backends, the `remaining` field is `Infinity` (reported as
unbounded), and in particular it is never a negative number; the default
tier table maps `admin` to this unbounded limit. -/
theorem c6_unbounded_tier (W now : Int) (st : StoreMap) (k : String) (l : List Int) :
    ((memCheckLimit W st k Lim.inf now).1.allowed = true ∧
     (memCheckLimit W st k Lim.inf now).1.remaining = JsNum.inf ∧
     jsIsNeg (memCheckLimit W st k Lim.inf now).1.remaining = false) ∧
    ((redisCheckLimit W l Lim.inf now).1.allowed = true ∧
     (redisCheckLimit W l Lim.inf now).1.remaining = JsNum.inf ∧
     jsIsNeg (redisCheckLimit W l Lim.inf now).1.remaining = false) ∧
    getTierLimit "admin" (some DEFAULT_TIERS) = Lim.inf := by
  refine ⟨?_, ?_, by rfl⟩
  · simp [memCheckLimit, memCheckList, jsGE, limSub, jsIsNeg]
  · simp [redisCheckLimit, jsGE, jsIsNeg]

/-- C7, counterexample: a configuration with a negative window length and an
empty (malformed) tier table is accepted — construction succeeds instead of
failing fast. -/
theorem c7_construction_counterexample :
    rateGuardInit
        { windowMs := some (-5), tiers := some [], hasResolveTier := false,
          hasKeyGenerator := false, hasOnLimitReached := false,
          hasRedisClient := false, redisKeyNs := none } =
      Except.ok { windowMs := -5, tiers := [], hasRedisClient := false } := by
  rfl

/-- C7, amended: construction never fails, whatever the tier table or window
length; there is no configuration validation. A window length of `0` is
silently replaced by the default `60000` (JS `||` falsiness), and any other
window length — negative included — is accepted as given. -/
theorem c7_no_fail_fast (opts : RateGuardOptions) :
    (∃ cfg, rateGuardInit opts = Except.ok cfg) ∧
    jsOrElseInt (some 0) DEFAULT_WINDOW_MS = DEFAULT_WINDOW_MS ∧
    jsOrElseInt (some (-5)) DEFAULT_WINDOW_MS = -5 := by
  refine ⟨?_, by rfl, by rfl⟩
  unfold rateGuardInit
  by_cases h : opts.hasRedisClient <;> simp [h]

/-- C9: when the resolved tier name is absent from the active tier table and
the table has no `free` entry either, `getTierLimit` returns `undefined`,
and a `checkLimit` call with an `undefined` limit always admits (the JS
comparison `count >= undefined` is always false), so the configuration
imposes no limit at all for that tier. -/
theorem c9_missing_tier_unlimited (tbl : List (String × Lim)) (tier : String)
    (h1 : lookupTier tbl tier = none) (h2 : lookupTier tbl "free" = none) :
    getTierLimit tier (some tbl) = Lim.undef ∧
    ∀ (W now : Int) (st : StoreMap) (k : String),
      (memCheckLimit W st k (getTierLimit tier (some tbl)) now).1.allowed = true := by
  have hu : getTierLimit tier (some tbl) = Lim.undef := by
    unfold getTierLimit
    simp [h1, h2]
  refine ⟨hu, ?_⟩
  intro W now st k
  rw [hu]
  simp [memCheckLimit, memCheckList, jsGE]

/-- C9 witness: a tier table with only a `pro` entry, queried for `guest`. -/
theorem c9_missing_tier_unlimited_witness :
    lookupTier [("pro", Lim.fin 600)] "guest" = none ∧
    lookupTier [("pro", Lim.fin 600)] "free" = none ∧
    (getTierLimit "guest" (some [("pro", Lim.fin 600)]) = Lim.undef ∧
     ∀ (W now : Int) (st : StoreMap) (k : String),
       (memCheckLimit W st k (getTierLimit "guest" (some [("pro", Lim.fin 600)])) now).1.allowed
         = true) :=
  ⟨by decide, by decide,
   c9_missing_tier_unlimited [("pro", Lim.fin 600)] "guest" (by decide) (by decide)⟩

/-- C10: with a limit at most 0 and no in-window timestamps for the key, the
local backend's deny branch reads the head of the empty pruned list and its
`retryAfter` is `NaN`, while the shared backend's guarded deny branch gives
`retryAfter = 0` on the same input — the two backends disagree there. -/
theorem c10_nonpositive_limit_nan_divergence (W n now : Int) (k : String)
    (st : StoreMap) (zset : List Int)
    (hn : n ≤ 0)
    (hm : memPrune (now - W) (getEntry st k) = [])
    (hr : redisPrune (now - W) zset = []) :
    (memCheckLimit W st k (Lim.fin n) now).1.retryAfter = JsNum.nan ∧
    (redisCheckLimit W zset (Lim.fin n) now).1.retryAfter = JsNum.int 0 ∧
    (memCheckLimit W st k (Lim.fin n) now).1.retryAfter ≠
      (redisCheckLimit W zset (Lim.fin n) now).1.retryAfter := by
  have h1 : (memCheckLimit W st k (Lim.fin n) now).1.retryAfter = JsNum.nan := by
    simp only [memCheckLimit, memCheckList, hm]
    simp [jsGE, hn]
  have h2 : (redisCheckLimit W zset (Lim.fin n) now).1.retryAfter = JsNum.int 0 := by
    simp only [redisCheckLimit, hr]
    simp [jsGE, hn]
  exact ⟨h1, h2, by rw [h1, h2]; exact fun h => JsNum.noConfusion h⟩

/-- C10 witness: empty stores, limit `0`. -/
theorem c10_nonpositive_limit_nan_divergence_witness :
    (0 : Int) ≤ 0 ∧
    ((memCheckLimit 1000 [] "a" (Lim.fin 0) 5).1.retryAfter = JsNum.nan ∧
     (redisCheckLimit 1000 [] (Lim.fin 0) 5).1.retryAfter = JsNum.int 0 ∧
     (memCheckLimit 1000 [] "a" (Lim.fin 0) 5).1.retryAfter ≠
       (redisCheckLimit 1000 [] (Lim.fin 0) 5).1.retryAfter) :=
  ⟨by decide,
   c10_nonpositive_limit_nan_divergence 1000 0 5 "a" [] [] (by decide) (by rfl) (by rfl)⟩

/-- A key that is not in the map reads as the empty list. -/
theorem getEntry_eq_nil_of_not_mem (st : StoreMap) (k : String)
    (h : k ∉ st.map Prod.fst) : getEntry st k = [] := by
  induction st with
  | nil => rfl
  | cons hd tl ih =>
    obtain ⟨k2, v⟩ := hd
    simp only [List.map_cons, List.mem_cons, not_or] at h
    have hne : ¬ (k2 = k) := fun he => h.1 he.symm
    rw [getEntry, if_neg hne]
    exact ih h.2

/-- Cleanup never introduces keys. -/
theorem mem_keys_memCleanup (W now : Int) (st : StoreMap) (k : String)
    (h : k ∈ (memCleanup W now st).map Prod.fst) : k ∈ st.map Prod.fst := by
  induction st with
  | nil => exact h
  | cons hd tl ih =>
    obtain ⟨k2, v⟩ := hd
    by_cases hl : (memPrune (now - W) v).length = 0
    · have hc : memCleanup W now ((k2, v) :: tl) = memCleanup W now tl := by
        simp [memCleanup, hl]
      rw [hc] at h
      exact List.mem_cons_of_mem _ (ih h)
    · have hc : memCleanup W now ((k2, v) :: tl) =
          (k2, memPrune (now - W) v) :: memCleanup W now tl := by
        simp [memCleanup, hl]
      rw [hc] at h
      simp only [List.map_cons, List.mem_cons] at h ⊢
      rcases h with h | h
      · exact Or.inl h
      · exact Or.inr (ih h)

/-- On a map with distinct keys (as a JS `Map` always has), reading a key
after `cleanup` gives exactly the pruned value of that key: cleanup only
prunes expired timestamps, and deleting an emptied entry is indistinguishable
from reading it through the `|| []` default. -/
theorem getEntry_memCleanup (W now : Int) (st : StoreMap) (k : String)
    (h : (st.map Prod.fst).Nodup) :
    getEntry (memCleanup W now st) k = memPrune (now - W) (getEntry st k) := by
  induction st with
  | nil => rfl
  | cons hd tl ih =>
    obtain ⟨k2, v⟩ := hd
    simp only [List.map_cons, List.nodup_cons] at h
    by_cases hk : k2 = k
    · subst hk
      have hR : getEntry ((k2, v) :: tl) k2 = v := by simp [getEntry]
      rw [hR]
      by_cases hl : (memPrune (now - W) v).length = 0
      · have hc : memCleanup W now ((k2, v) :: tl) = memCleanup W now tl := by
          simp [memCleanup, hl]
        rw [hc]
        rw [List.length_eq_zero] at hl
        rw [hl]
        exact getEntry_eq_nil_of_not_mem _ _
          (fun hm => h.1 (mem_keys_memCleanup W now tl k2 hm))
      · have hc : memCleanup W now ((k2, v) :: tl) =
            (k2, memPrune (now - W) v) :: memCleanup W now tl := by
          simp [memCleanup, hl]
        rw [hc]
        simp [getEntry]
    · have hR : getEntry ((k2, v) :: tl) k = getEntry tl k := by simp [getEntry, hk]
      rw [hR]
      by_cases hl : (memPrune (now - W) v).length = 0
      · have hc : memCleanup W now ((k2, v) :: tl) = memCleanup W now tl := by
          simp [memCleanup, hl]
        rw [hc]
        exact ih h.2
      · have hc : memCleanup W now ((k2, v) :: tl) =
            (k2, memPrune (now - W) v) :: memCleanup W now tl := by
          simp [memCleanup, hl]
        rw [hc]
        have hskip : getEntry ((k2, memPrune (now - W) v) :: memCleanup W now tl) k =
            getEntry (memCleanup W now tl) k := by
          simp [getEntry, hk]
        rw [hskip]
        exact ih h.2

/-- Pruning is idempotent. -/
theorem memPrune_idem (ws : Int) (l : List Int) :
    memPrune ws (memPrune ws l) = memPrune ws l := by
  simp [memPrune, List.filter_filter]

/-- `memCheckList` only sees its input list through the prune step. -/
theorem memCheckList_prune (W : Int) (l : List Int) (lim : Lim) (now : Int) :
    memCheckList W (memPrune (now - W) l) lim now = memCheckList W l lim now := by
  simp only [memCheckList]
  rw [memPrune_idem]

/-- C8: running the Eviction Sweeper's `cleanup()` at time `now` immediately
before a `checkLimit` call never changes the resulting `Decision` — cleanup
only prunes expired timestamps (deleting a key when nothing remains), and
`checkLimit` prunes again anyway. -/
theorem c8_cleanup_preserves_decisions (W now : Int) (st : StoreMap) (k : String)
    (lim : Lim) (hnd : (st.map Prod.fst).Nodup) :
    (memCheckLimit W (memCleanup W now st) k lim now).1 =
      (memCheckLimit W st k lim now).1 := by
  unfold memCheckLimit
  rw [getEntry_memCleanup W now st k hnd, memCheckList_prune]

/-- C8 witness: a store with one stale key (deleted by cleanup) and one
partially expired key; the decision is unchanged. -/
theorem c8_cleanup_preserves_decisions_witness :
    (([("a", [1, 95]), ("b", [2])] : StoreMap).map Prod.fst).Nodup ∧
    (memCheckLimit 10 (memCleanup 10 100 [("a", [1, 95]), ("b", [2])]) "a" (Lim.fin 1) 100).1 =
      (memCheckLimit 10 [("a", [1, 95]), ("b", [2])] "a" (Lim.fin 1) 100).1 :=
  ⟨by decide,
   c8_cleanup_preserves_decisions 10 100 [("a", [1, 95]), ("b", [2])] "a" (Lim.fin 1)
     (by decide)⟩

/-- Reading back the key just written. -/
theorem getEntry_setEntry_same (st : StoreMap) (k : String) (v : List Int) :
    getEntry (setEntry st k v) k = v := by
  induction st with
  | nil => simp [setEntry, getEntry]
  | cons hd tl ih =>
    obtain ⟨k2, v2⟩ := hd
    by_cases hk : k2 = k
    · simp [setEntry, getEntry, hk]
    · simp only [setEntry, if_neg hk, getEntry]
      exact ih

/-- Writing one key leaves every other key unchanged. -/
theorem getEntry_setEntry_ne (st : StoreMap) (k k2 : String) (v : List Int)
    (h : k2 ≠ k) : getEntry (setEntry st k v) k2 = getEntry st k2 := by
  induction st with
  | nil =>
    simp only [setEntry, getEntry]
    rw [if_neg (fun he : k = k2 => h he.symm)]
  | cons hd tl ih =>
    obtain ⟨k3, v3⟩ := hd
    by_cases hk : k3 = k
    · subst hk
      have hne : ¬ (k3 = k2) := fun he => h (he.symm.trans rfl)
      simp [setEntry, getEntry, hne]
    · simp only [setEntry, if_neg hk, getEntry]
      by_cases hk2 : k3 = k2
      · simp [hk2]
      · rw [if_neg hk2, if_neg hk2]
        exact ih

/-- The list `MemoryStore.checkLimit` writes back: the pruned list, plus the
appended `now` when the request was admitted. -/
theorem memCheckList_snd (W : Int) (l : List Int) (lim : Lim) (now : Int) :
    (memCheckList W l lim now).2 =
      if jsGE ((memPrune (now - W) l).length : Int) lim
      then memPrune (now - W) l
      else memPrune (now - W) l ++ [now] := by
  simp only [memCheckList]
  by_cases h : jsGE ((memPrune (now - W) l).length : Int) lim <;> simp [h]

/-- Every element surviving a prune is in-window. -/
theorem mem_memPrune_lt (ws : Int) (l : List Int) (x : Int)
    (h : x ∈ memPrune ws l) : ws < x := by
  simp only [memPrune, List.mem_filter, decide_eq_true_eq] at h
  exact h.2

/-- One local `checkLimit` call with a finite limit `n` preserves the store
invariant "every entry has at most `n` timestamps", and every timestamp it
stores for the touched key is strictly newer than `now - W`. -/
theorem memCheckLimit_inv (W n : Int) (st : StoreMap) (k0 : String) (now : Int)
    (hW : 0 < W)
    (hinv : ∀ k, ((getEntry st k).length : Int) ≤ n) :
    (∀ k, ((getEntry (memCheckLimit W st k0 (Lim.fin n) now).2 k).length : Int) ≤ n) ∧
    (∀ x ∈ getEntry (memCheckLimit W st k0 (Lim.fin n) now).2 k0, now - W < x) := by
  have hsnd : (memCheckLimit W st k0 (Lim.fin n) now).2 =
      setEntry st k0 (memCheckList W (getEntry st k0) (Lim.fin n) now).2 := rfl
  set f := memPrune (now - W) (getEntry st k0) with hf
  have hflen : (f.length : Int) ≤ ((getEntry st k0).length : Int) := by
    exact_mod_cast List.length_filter_le _ _
  have hfwin : ∀ x ∈ f, now - W < x := fun x hx => mem_memPrune_lt _ _ x hx
  have hentry : getEntry (memCheckLimit W st k0 (Lim.fin n) now).2 k0 =
      (memCheckList W (getEntry st k0) (Lim.fin n) now).2 := by
    rw [hsnd, getEntry_setEntry_same]
  have hlist : (memCheckList W (getEntry st k0) (Lim.fin n) now).2 = f ∨
      ((memCheckList W (getEntry st k0) (Lim.fin n) now).2 = f ++ [now] ∧
       (f.length : Int) < n) := by
    rw [memCheckList_snd, ← hf]
    by_cases h : jsGE ((f.length : Int)) (Lim.fin n)
    · rw [if_pos h]; exact Or.inl rfl
    · rw [if_neg h]
      refine Or.inr ⟨rfl, ?_⟩
      simp only [jsGE, decide_eq_true_eq] at h
      omega
  constructor
  · intro k
    by_cases hk : k = k0
    · subst hk
      rw [hentry]
      rcases hlist with h | ⟨h, hlt⟩
      · rw [h]; exact le_trans hflen (hinv _)
      · rw [h]
        simp only [List.length_append, List.length_singleton]
        push_cast
        omega
    · rw [hsnd, getEntry_setEntry_ne st k0 k _ hk]
      exact hinv k
  · intro x hx
    rw [hentry] at hx
    rcases hlist with h | ⟨h, _⟩
    · rw [h] at hx; exact hfwin x hx
    · rw [h] at hx
      rcases List.mem_append.mp hx with hx | hx
      · exact hfwin x hx
      · rcases List.mem_singleton.mp hx with rfl
        omega

/-- The per-entry length bound is preserved along any run with a fixed
finite limit. -/
theorem memRun_inv (W n : Int) (calls : List (String × Int)) (st : StoreMap)
    (hW : 0 < W)
    (hinv : ∀ k, ((getEntry st k).length : Int) ≤ n) :
    ∀ k, ((getEntry (memRun W st (calls.map fun c => (c.1, Lim.fin n, c.2))).2 k).length : Int) ≤ n := by
  induction calls generalizing st with
  | nil => exact hinv
  | cons c rest ih =>
    obtain ⟨k0, t0⟩ := c
    simp only [List.map_cons, memRun]
    exact ih _ (memCheckLimit_inv W n st k0 t0 hW hinv).1

/-- Running a concatenation of call lists runs them in sequence. -/
theorem memRun_append (W : Int) (st : StoreMap) (c1 c2 : List (String × Lim × Int)) :
    memRun W st (c1 ++ c2) =
      ((memRun W st c1).1 ++ (memRun W (memRun W st c1).2 c2).1,
       (memRun W (memRun W st c1).2 c2).2) := by
  induction c1 generalizing st with
  | nil => simp [memRun]
  | cons c rest ih =>
    obtain ⟨k, lim, t⟩ := c
    simp [memRun, ih]

/-- C4: run any sequence of local-backend `checkLimit` calls with a fixed
finite limit `n` from a fresh store, in a positive window `W`. After each
call (the `j`-th, say, made at time `now_j`), every key's stored timestamp
sequence has length at most `n`, and every timestamp stored for the key of
that call is strictly greater than `now_j - W`. -/
theorem c4_monotonic_pruning (W n : Int) (calls : List (String × Int)) (j : Nat)
    (hW : 0 < W) (hn : 0 ≤ n) (hj : j < calls.length) :
    (∀ k, ((getEntry
        (memRun W [] ((calls.take (j+1)).map fun c => (c.1, Lim.fin n, c.2))).2 k).length : Int) ≤ n) ∧
    (∀ x ∈ getEntry
        (memRun W [] ((calls.take (j+1)).map fun c => (c.1, Lim.fin n, c.2))).2
        (calls.get ⟨j, hj⟩).1,
      (calls.get ⟨j, hj⟩).2 - W < x) := by
  have htake : calls.take (j+1) = calls.take j ++ [calls.get ⟨j, hj⟩] := by
    rw [List.take_succ]
    congr 1
    rw [List.getElem?_eq_getElem hj]
    rfl
  rw [htake, List.map_append]
  rw [memRun_append]
  set stj := (memRun W [] ((calls.take j).map fun c => (c.1, Lim.fin n, c.2))).2 with hstj
  have hinvj : ∀ k, ((getEntry stj k).length : Int) ≤ n := by
    rw [hstj]
    refine memRun_inv W n (calls.take j) [] hW ?_
    intro k
    simp [getEntry, hn]
  simp only [List.map_cons, List.map_nil, memRun]
  exact memCheckLimit_inv W n stj (calls.get ⟨j, hj⟩).1 (calls.get ⟨j, hj⟩).2 hW hinvj

/-- C4 witness: limit 1, two calls for key `a`; after the second (denied)
call the entry for `a` holds one timestamp, in-window. -/
theorem c4_monotonic_pruning_witness :
    (0 : Int) < 10 ∧ (0 : Int) ≤ 1 ∧
    1 < ([("a", (0 : Int)), ("a", 5)] : List (String × Int)).length ∧
    ((∀ k, ((getEntry
        (memRun 10 [] ((([("a", (0 : Int)), ("a", 5)]).take 2).map
          fun c => (c.1, Lim.fin 1, c.2))).2 k).length : Int) ≤ 1) ∧
     (∀ x ∈ getEntry
        (memRun 10 [] ((([("a", (0 : Int)), ("a", 5)]).take 2).map
          fun c => (c.1, Lim.fin 1, c.2))).2 "a",
       (5 : Int) - 10 < x)) :=
  ⟨by decide, by decide, by decide,
   c4_monotonic_pruning 10 1 [("a", 0), ("a", 5)] 1 (by decide) (by decide) (by decide)⟩

/-- The decision and written list of an admitted `MemoryStore.checkLimit`. -/
theorem memCheckList_allow (W : Int) (l : List Int) (lim : Lim) (now : Int)
    (h : jsGE ((memPrune (now - W) l).length : Int) lim = false) :
    (memCheckList W l lim now).1.allowed = true ∧
    (memCheckList W l lim now).1.remaining =
      limSub lim (((memPrune (now - W) l).length : Int) + 1) ∧
    (memCheckList W l lim now).2 = memPrune (now - W) l ++ [now] := by
  refine ⟨by simp [memCheckList, h], ?_, by simp [memCheckList, h]⟩
  simp only [memCheckList, h, Bool.false_eq_true, if_false]
  congr 1
  push_cast [List.length_append, List.length_singleton]
  ring

/-- The decision and written list of a denied `MemoryStore.checkLimit`. -/
theorem memCheckList_deny (W : Int) (l : List Int) (lim : Lim) (now : Int)
    (h : jsGE ((memPrune (now - W) l).length : Int) lim = true) :
    (memCheckList W l lim now).1.allowed = false ∧
    (memCheckList W l lim now).1.current = ((memPrune (now - W) l).length : Int) ∧
    (memCheckList W l lim now).2 = memPrune (now - W) l := by
  refine ⟨by simp [memCheckList, h], by simp [memCheckList, h], by simp [memCheckList, h]⟩

/-- A burst that fits under the limit: starting from any store whose entry
for `k` together with the upcoming calls stays within the window and within
the finite limit `N`, every call in the burst is admitted, the entry ends as
the old entry followed by all the call times, and the `i`-th decision
reports `remaining = N - (oldLength + i + 1)`. -/
theorem memRun_burst (W : Int) (k : String) (N : Int) :
    ∀ (ts : List Int) (st : StoreMap),
      ((getEntry st k).length : Int) + ts.length ≤ N →
      (∀ a ∈ ts, ∀ b ∈ getEntry st k, a - W < b) →
      (∀ a ∈ ts, ∀ b ∈ ts, a - W < b) →
      getEntry (memRun W st (ts.map fun t => (k, Lim.fin N, t))).2 k =
        getEntry st k ++ ts ∧
      ∀ i (h : i < (memRun W st (ts.map fun t => (k, Lim.fin N, t))).1.length),
        ((memRun W st (ts.map fun t => (k, Lim.fin N, t))).1.get ⟨i, h⟩).allowed = true ∧
        ((memRun W st (ts.map fun t => (k, Lim.fin N, t))).1.get ⟨i, h⟩).remaining =
          JsNum.int (N - (((getEntry st k).length : Int) + i + 1)) := by
  intro ts
  induction ts with
  | nil =>
    intro st _ _ _
    refine ⟨by simp [memRun], ?_⟩
    intro i h
    simp [memRun] at h
  | cons t rest ih =>
    intro st hlen hwin1 hwin2
    have hkeep : memPrune (t - W) (getEntry st k) = getEntry st k := by
      refine List.filter_eq_self.mpr ?_
      intro b hb
      simp only [decide_eq_true_eq]
      exact hwin1 t (List.mem_cons_self _ _) b hb
    have hfalse : jsGE ((memPrune (t - W) (getEntry st k)).length : Int) (Lim.fin N) = false := by
      rw [hkeep]
      simp only [jsGE, decide_eq_false_iff_not, not_le]
      simp only [List.length_cons] at hlen
      push_cast at hlen ⊢
      omega
    obtain ⟨hall, hrem, hsnd⟩ := memCheckList_allow W (getEntry st k) (Lim.fin N) t hfalse
    have hentry2 : getEntry (memCheckLimit W st k (Lim.fin N) t).2 k =
        getEntry st k ++ [t] := by
      show getEntry (setEntry st k (memCheckList W (getEntry st k) (Lim.fin N) t).2) k = _
      rw [getEntry_setEntry_same, hsnd, hkeep]
    have hlen2 : ((getEntry (memCheckLimit W st k (Lim.fin N) t).2 k).length : Int) +
        rest.length ≤ N := by
      rw [hentry2]
      simp only [List.length_append, List.length_singleton, List.length_cons,
        List.length_nil] at hlen ⊢
      push_cast at hlen ⊢
      omega
    have hwin1b : ∀ a ∈ rest, ∀ b ∈ getEntry (memCheckLimit W st k (Lim.fin N) t).2 k,
        a - W < b := by
      intro a ha b hb
      rw [hentry2] at hb
      rcases List.mem_append.mp hb with hb | hb
      · exact hwin1 a (List.mem_cons_of_mem _ ha) b hb
      · have heq : b = t := List.mem_singleton.mp hb
        rw [heq]
        exact hwin2 a (List.mem_cons_of_mem _ ha) t (List.mem_cons_self _ _)
    have hwin2b : ∀ a ∈ rest, ∀ b ∈ rest, a - W < b :=
      fun a ha b hb => hwin2 a (List.mem_cons_of_mem _ ha) b (List.mem_cons_of_mem _ hb)
    obtain ⟨ihstate, ihdec⟩ := ih (memCheckLimit W st k (Lim.fin N) t).2 hlen2 hwin1b hwin2b
    have hfst : (memCheckLimit W st k (Lim.fin N) t).1 =
        (memCheckList W (getEntry st k) (Lim.fin N) t).1 := rfl
    constructor
    · simp only [List.map_cons, memRun]
      rw [ihstate, hentry2, List.append_assoc, List.singleton_append]
    · intro i h
      simp only [List.map_cons, memRun, List.get_eq_getElem] at h ⊢
      cases i with
      | zero =>
        simp only [List.getElem_cons_zero, hfst]
        refine ⟨hall, ?_⟩
        rw [hrem, hkeep]
        simp only [limSub]
        norm_num
      | succ i =>
        simp only [List.getElem_cons_succ]
        have h2 : i < (memRun W (memCheckLimit W st k (Lim.fin N) t).2
            (rest.map fun t => (k, Lim.fin N, t))).1.length := by
          simp only [memRun, List.length_cons] at h
          omega
        obtain ⟨ha, hr⟩ := ihdec i h2
        simp only [List.get_eq_getElem] at ha hr
        refine ⟨ha, ?_⟩
        rw [hr, hentry2]
        congr 1
        simp only [List.length_append, List.length_singleton]
        push_cast
        ring

/-- A run produces one decision per call. -/
theorem memRun_length (W : Int) (st : StoreMap) (calls : List (String × Lim × Int)) :
    (memRun W st calls).1.length = calls.length := by
  induction calls generalizing st with
  | nil => rfl
  | cons c rest ih =>
    obtain ⟨k, lim, t⟩ := c
    simp [memRun, ih]

/-- C3: for a positive finite limit `N`, a burst of `N+1` calls for one key
all falling inside one window (every call time is in-window relative to
every other) yields: the `N`-th call is allowed with `remaining = 0`, and
the `(N+1)`-th call is denied. -/
theorem c3_quota_boundary (N : Nat) (W : Int) (k : String) (ts : List Int)
    (hN : 1 ≤ N) (hlen : ts.length = N + 1)
    (hwin : ∀ a ∈ ts, ∀ b ∈ ts, a - W < b) :
    (((memRun W [] (ts.map fun t => (k, Lim.fin (N : Int), t))).1[N-1]?).map
        (fun d => (d.allowed, d.remaining)) = some (true, JsNum.int 0)) ∧
    (((memRun W [] (ts.map fun t => (k, Lim.fin (N : Int), t))).1[N]?).map
        Decision.allowed = some false) := by
  -- split the burst into the first N calls and the final one
  obtain ⟨tN, hdrop⟩ : ∃ tN, ts.drop N = [tN] := by
    rw [← List.length_eq_one]
    rw [List.length_drop, hlen]
    omega
  have hsplit : ts = ts.take N ++ [tN] := by
    rw [← hdrop, List.take_append_drop]
  have hlen1 : (ts.take N).length = N := by
    rw [List.length_take, hlen]
    omega
  have hsub1 : ∀ x ∈ ts.take N, x ∈ ts := fun x hx => List.take_subset N ts hx
  have htN : tN ∈ ts := by
    have : tN ∈ ts.drop N := by rw [hdrop]; exact List.mem_singleton.mpr rfl
    exact List.drop_subset N ts this
  have hstart : getEntry ([] : StoreMap) k = [] := rfl
  -- the first N calls are one admitted burst
  obtain ⟨hstate1, hdec1⟩ :=
    memRun_burst W k (N : Int) (ts.take N) []
      (by rw [hstart, hlen1]; simp)
      (by rw [hstart]; intro a ha b hb; simp at hb)
      (fun a ha b hb => hwin a (hsub1 a ha) b (hsub1 b hb))
  rw [hstart, List.nil_append] at hstate1
  have hblen : (memRun W [] ((ts.take N).map fun t => (k, Lim.fin (N : Int), t))).1.length
      = N := by
    rw [memRun_length, List.length_map, hlen1]
  -- rewrite the full run as burst-then-last
  have hmap : ts.map (fun t => (k, Lim.fin (N : Int), t)) =
      (ts.take N).map (fun t => (k, Lim.fin (N : Int), t)) ++
        [(k, Lim.fin (N : Int), tN)] := by
    conv_lhs => rw [hsplit]
    rw [List.map_append]
    rfl
  rw [hmap, memRun_append]
  set st1 := (memRun W [] ((ts.take N).map fun t => (k, Lim.fin (N : Int), t))).2 with hst1
  constructor
  · -- N-th call: index N-1 falls inside the burst
    have hidx : N - 1 < (memRun W [] ((ts.take N).map
        fun t => (k, Lim.fin (N : Int), t))).1.length := by
      rw [hblen]; omega
    rw [List.getElem?_append_left hidx]
    rw [List.getElem?_eq_getElem hidx]
    obtain ⟨ha, hr⟩ := hdec1 (N - 1) hidx
    simp only [List.get_eq_getElem] at ha hr
    simp only [Option.map_some']
    rw [ha, hr, hstart]
    simp only [List.length_nil, Nat.cast_zero, zero_add]
    have harith : (N : Int) - (((N - 1 : Nat) : Int) + 1) = 0 := by
      rw [Nat.cast_sub hN]
      push_cast
      ring
    rw [harith]
  · -- (N+1)-th call: index N is the final, denied call
    have hble : (memRun W [] ((ts.take N).map
        fun t => (k, Lim.fin (N : Int), t))).1.length ≤ N := by rw [hblen]
    rw [List.getElem?_append_right hble, hblen, Nat.sub_self]
    have hkeepN : memPrune (tN - W) (getEntry st1 k) = getEntry st1 k := by
      refine List.filter_eq_self.mpr ?_
      intro b hb
      rw [hstate1] at hb
      simp only [decide_eq_true_eq]
      exact hwin tN htN b (hsub1 b hb)
    have htrue : jsGE ((memPrune (tN - W) (getEntry st1 k)).length : Int)
        (Lim.fin (N : Int)) = true := by
      rw [hkeepN, hstate1, hlen1]
      simp [jsGE]
    obtain ⟨hdeny, _, _⟩ := memCheckList_deny W (getEntry st1 k) (Lim.fin (N : Int)) tN htrue
    simp only [memRun, List.getElem?_cons_zero, Option.map_some]
    exact congrArg some hdeny

/-- C3 witness: limit 1, two same-instant calls — the first is allowed with
nothing remaining, the second is denied. -/
theorem c3_quota_boundary_witness :
    1 ≤ 1 ∧ ([(0 : Int), 0]).length = 1 + 1 ∧
    (∀ a ∈ [(0 : Int), 0], ∀ b ∈ [(0 : Int), 0], a - 10 < b) ∧
    ((((memRun 10 [] ([(0 : Int), 0].map
          fun t => ("a", Lim.fin ((1 : Nat) : Int), t))).1[1-1]?).map
        (fun d => (d.allowed, d.remaining)) = some (true, JsNum.int 0)) ∧
     (((memRun 10 [] ([(0 : Int), 0].map
          fun t => ("a", Lim.fin ((1 : Nat) : Int), t))).1[1]?).map
        Decision.allowed = some false)) :=
  ⟨by decide, by decide, by decide,
   c3_quota_boundary 1 10 "a" [0, 0] (by decide) (by decide) (by decide)⟩

/-- The count an admitted `MemoryStore.checkLimit` reports. -/
theorem memCheckList_allow_current (W : Int) (l : List Int) (lim : Lim) (now : Int)
    (h : jsGE ((memPrune (now - W) l).length : Int) lim = false) :
    (memCheckList W l lim now).1.current = ((memPrune (now - W) l).length : Int) + 1 := by
  simp only [memCheckList, h, Bool.false_eq_true, if_false]
  push_cast [List.length_append, List.length_singleton]
  ring

/-- The decision and written set of a denied `RedisStore.checkLimit`. -/
theorem redisCheckLimit_deny (W : Int) (l : List Int) (lim : Lim) (now : Int)
    (h : jsGE ((redisPrune (now - W) l).length : Int) lim = true) :
    (redisCheckLimit W l lim now).1.allowed = false ∧
    (redisCheckLimit W l lim now).1.current = ((redisPrune (now - W) l).length : Int) ∧
    (redisCheckLimit W l lim now).2 = redisPrune (now - W) l := by
  refine ⟨by simp [redisCheckLimit, h], by simp [redisCheckLimit, h],
    by simp [redisCheckLimit, h]⟩

/-- The decision and written set of an admitted `RedisStore.checkLimit`. -/
theorem redisCheckLimit_allow (W : Int) (l : List Int) (lim : Lim) (now : Int)
    (h : jsGE ((redisPrune (now - W) l).length : Int) lim = false) :
    (redisCheckLimit W l lim now).1.allowed = true ∧
    (redisCheckLimit W l lim now).1.current = ((redisPrune (now - W) l).length : Int) + 1 ∧
    (redisCheckLimit W l lim now).2 = insertByScore now (redisPrune (now - W) l) := by
  refine ⟨by simp [redisCheckLimit, h], by simp [redisCheckLimit, h],
    by simp [redisCheckLimit, h]⟩

/-- On nonnegative timestamps (every recorded `Date.now()` value is one), the
shared backend's inclusive `[0, windowStart]` removal and the local backend's
`> windowStart` filter retain exactly the same elements. -/
theorem redisPrune_eq_memPrune (ws : Int) (l : List Int)
    (h : ∀ x ∈ l, 0 ≤ x) : redisPrune ws l = memPrune ws l := by
  unfold redisPrune memPrune
  apply List.filter_congr
  intro x hx
  have hx0 : (0 : Int) ≤ x := h x hx
  rw [decide_eq_true hx0, Bool.true_and]
  by_cases hc : x ≤ ws
  · rw [decide_eq_true hc]
    simp only [Bool.not_true]
    symm
    rw [decide_eq_false_iff_not]
    omega
  · rw [decide_eq_false hc]
    simp only [Bool.not_false]
    symm
    rw [decide_eq_true_eq]
    omega

/-- Sorted insertion is the cons, up to permutation. -/
theorem insertByScore_perm (x : Int) (l : List Int) :
    (insertByScore x l).Perm (x :: l) := by
  induction l with
  | nil => exact List.Perm.refl _
  | cons y ys ih =>
    unfold insertByScore
    by_cases h : x < y
    · rw [if_pos h]
    · rw [if_neg h]
      exact (List.Perm.cons y ih).trans (List.Perm.swap x y ys)

/-- One step of the two backends on permuted, nonnegative per-key states:
the decisions agree on `allowed` and `current`, and the written states are
again permuted and nonnegative. -/
theorem memRedis_step (W now : Int) (lim : Lim) (l1 l2 : List Int)
    (hperm : l1.Perm l2) (h1 : ∀ x ∈ l1, 0 ≤ x) (hnow : 0 ≤ now) :
    (memCheckList W l1 lim now).1.allowed = (redisCheckLimit W l2 lim now).1.allowed ∧
    (memCheckList W l1 lim now).1.current = (redisCheckLimit W l2 lim now).1.current ∧
    (memCheckList W l1 lim now).2.Perm (redisCheckLimit W l2 lim now).2 ∧
    (∀ x ∈ (memCheckList W l1 lim now).2, 0 ≤ x) := by
  have h2 : ∀ x ∈ l2, 0 ≤ x := fun x hx => h1 x (hperm.mem_iff.mpr hx)
  have hpr : redisPrune (now - W) l2 = memPrune (now - W) l2 :=
    redisPrune_eq_memPrune (now - W) l2 h2
  have hpp : (memPrune (now - W) l1).Perm (memPrune (now - W) l2) :=
    hperm.filter _
  have hlen2 : ((memPrune (now - W) l1).length : Int) =
      ((redisPrune (now - W) l2).length : Int) := by
    rw [hpr]
    exact_mod_cast hpp.length_eq
  have hmemnn : ∀ x ∈ memPrune (now - W) l1, 0 ≤ x :=
    fun x hx => h1 x (List.filter_subset' l1 hx)
  by_cases hg : jsGE ((memPrune (now - W) l1).length : Int) lim
  · have hg2 : jsGE ((redisPrune (now - W) l2).length : Int) lim = true := by
      rw [← hlen2]; exact hg
    obtain ⟨ha1, hc1, hs1⟩ := memCheckList_deny W l1 lim now hg
    obtain ⟨ha2, hc2, hs2⟩ := redisCheckLimit_deny W l2 lim now hg2
    refine ⟨by rw [ha1, ha2], by rw [hc1, hc2, hlen2], ?_, ?_⟩
    · rw [hs1, hs2, hpr]
      exact hpp
    · rw [hs1]
      exact hmemnn
  · have hgf : jsGE ((memPrune (now - W) l1).length : Int) lim = false := by
      exact Bool.not_eq_true _ |>.mp hg
    have hg2 : jsGE ((redisPrune (now - W) l2).length : Int) lim = false := by
      rw [← hlen2]; exact hgf
    obtain ⟨ha1, hr1, hs1⟩ := memCheckList_allow W l1 lim now hgf
    have hc1 := memCheckList_allow_current W l1 lim now hgf
    obtain ⟨ha2, hc2, hs2⟩ := redisCheckLimit_allow W l2 lim now hg2
    refine ⟨by rw [ha1, ha2], by rw [hc1, hc2, hlen2], ?_, ?_⟩
    · rw [hs1, hs2, hpr]
      refine (List.perm_append_comm).trans ?_
      refine (List.Perm.cons now hpp).trans ?_
      exact (insertByScore_perm now (memPrune (now - W) l2)).symm
    · rw [hs1]
      intro x hx
      rcases List.mem_append.mp hx with hx | hx
      · exact hmemnn x hx
      · rcases List.mem_singleton.mp hx with rfl
        exact hnow

/-- The shared backend's key derivation is injective in the identity key for
a fixed namespace and tier. -/
theorem mkRedisKey_inj (pre tier k1 k2 : String)
    (h : mkRedisKey pre tier k1 = mkRedisKey pre tier k2) : k1 = k2 := by
  unfold mkRedisKey at h
  have hd := congrArg String.data h
  simp only [String.data_append] at hd
  have hd2 : k1.data = k2.data := by
    simp only [List.append_assoc] at hd
    exact List.append_cancel_left
      (List.append_cancel_left (List.append_cancel_left hd))
  exact congrArg String.mk hd2

/-- Backend equivalence along a whole call sequence, from linked states:
if each identity key's local entry is a permutation of its shared entry and
all stored timestamps are nonnegative, both backends produce the same
`allowed`/`current` stream. -/
theorem memRedis_run (W : Int) (pre tier : String) :
    ∀ (calls : List (String × Lim × Int)) (stM stR : StoreMap),
      (∀ c ∈ calls, 0 ≤ c.2.2) →
      (∀ k2, (getEntry stM k2).Perm (getEntry stR (mkRedisKey pre tier k2)) ∧
             ∀ x ∈ getEntry stM k2, 0 ≤ x) →
      ((memRun W stM calls).1.map fun d => (d.allowed, d.current)) =
      ((redisRun W pre tier stR calls).1.map fun d => (d.allowed, d.current)) := by
  intro calls
  induction calls with
  | nil => intro stM stR _ _; rfl
  | cons c rest ih =>
    obtain ⟨k, lim, t⟩ := c
    intro stM stR hts hinv
    have ht : (0 : Int) ≤ t := hts (k, lim, t) (List.mem_cons_self _ _)
    obtain ⟨hall, hcur, hsperm, hsnn⟩ :=
      memRedis_step W t lim (getEntry stM k) (getEntry stR (mkRedisKey pre tier k))
        (hinv k).1 (hinv k).2 ht
    simp only [memRun, redisRun, List.map_cons]
    have hhead :
        ((memCheckLimit W stM k lim t).1.allowed,
          (memCheckLimit W stM k lim t).1.current) =
        ((redisCheckLimitOn W pre tier stR k lim t).1.allowed,
          (redisCheckLimitOn W pre tier stR k lim t).1.current) := by
      show ((memCheckList W (getEntry stM k) lim t).1.allowed,
            (memCheckList W (getEntry stM k) lim t).1.current) =
          ((redisCheckLimit W (getEntry stR (mkRedisKey pre tier k)) lim t).1.allowed,
            (redisCheckLimit W (getEntry stR (mkRedisKey pre tier k)) lim t).1.current)
      rw [hall, hcur]
    rw [hhead]
    congr 1
    refine ih _ _ (fun c hc => hts c (List.mem_cons_of_mem _ hc)) ?_
    intro k2
    by_cases hk : k2 = k
    · subst hk
      constructor
      · show (getEntry (setEntry stM k2 (memCheckList W (getEntry stM k2) lim t).2) k2).Perm
            (getEntry (setEntry stR (mkRedisKey pre tier k2)
              (redisCheckLimit W (getEntry stR (mkRedisKey pre tier k2)) lim t).2)
              (mkRedisKey pre tier k2))
        rw [getEntry_setEntry_same, getEntry_setEntry_same]
        exact hsperm
      · show ∀ x ∈ getEntry (setEntry stM k2 (memCheckList W (getEntry stM k2) lim t).2) k2,
            0 ≤ x
        rw [getEntry_setEntry_same]
        exact hsnn
    · have hkne : mkRedisKey pre tier k2 ≠ mkRedisKey pre tier k :=
        fun he => hk (mkRedisKey_inj pre tier k2 k he)
      constructor
      · show (getEntry (setEntry stM k (memCheckList W (getEntry stM k) lim t).2) k2).Perm
            (getEntry (setEntry stR (mkRedisKey pre tier k)
              (redisCheckLimit W (getEntry stR (mkRedisKey pre tier k)) lim t).2)
              (mkRedisKey pre tier k2))
        rw [getEntry_setEntry_ne _ _ _ _ hk, getEntry_setEntry_ne _ _ _ _ hkne]
        exact (hinv k2).1
      · show ∀ x ∈ getEntry (setEntry stM k (memCheckList W (getEntry stM k) lim t).2) k2,
            0 ≤ x
        rw [getEntry_setEntry_ne _ _ _ _ hk]
        exact (hinv k2).2

/-- C2: for every call sequence (identity key, limit and epoch-millisecond
call time per call, times nonnegative as `Date.now()` values are), the local
backend and the shared backend — keyed under any fixed namespace and tier —
produce identical `allowed`/`current` sequences. -/
theorem c2_backend_equivalence (W : Int) (pre tier : String)
    (calls : List (String × Lim × Int))
    (hts : ∀ c ∈ calls, 0 ≤ c.2.2) :
    ((memRun W [] calls).1.map fun d => (d.allowed, d.current)) =
    ((redisRun W pre tier [] calls).1.map fun d => (d.allowed, d.current)) := by
  refine memRedis_run W pre tier calls [] [] hts ?_
  intro k2
  exact ⟨List.Perm.refl _, fun x hx => absurd hx (List.not_mem_nil x)⟩

/-- C2 witness: three calls under limit 2 at the default window, with mixed
keys; both backends report the same allowed/current stream. -/
theorem c2_backend_equivalence_witness :
    (∀ c ∈ [("a", Lim.fin 2, (0 : Int)), ("a", Lim.fin 2, 1), ("b", Lim.fin 2, 1),
        ("a", Lim.fin 2, 2)], 0 ≤ c.2.2) ∧
    ((memRun 60000 [] [("a", Lim.fin 2, (0 : Int)), ("a", Lim.fin 2, 1),
        ("b", Lim.fin 2, 1), ("a", Lim.fin 2, 2)]).1.map
      fun d => (d.allowed, d.current)) =
    ((redisRun 60000 "ratewarden:" "default" [] [("a", Lim.fin 2, (0 : Int)),
        ("a", Lim.fin 2, 1), ("b", Lim.fin 2, 1), ("a", Lim.fin 2, 2)]).1.map
      fun d => (d.allowed, d.current)) :=
  ⟨by decide,
   c2_backend_equivalence 60000 "ratewarden:" "default"
     [("a", Lim.fin 2, 0), ("a", Lim.fin 2, 1), ("b", Lim.fin 2, 1), ("a", Lim.fin 2, 2)]
     (by decide)⟩

end Ratewarden
